import Mathlib

/-!
Verification of the gakun SSH-profile manager (`src/main.rs`).

The program has two components:

* a managed-section splice over the user's SSH config file
  (`read_file_with_skip_section`, `use_profile`, `detach`), modelled here as
  pure functions over file contents represented as `List Char`;
* a JSON-persisted profile store (`load_config`, `save_config`, `add`,
  `use_profile`), modelled as explicit state passing over a `Store` record.

File contents are `List Char` (one entry per byte/char of the file).  Reading
a file line by line with Rust's `BufReader::lines` is modelled by `linesOf`:
split at `'\n'`, drop a final empty fragment, and remove one trailing `'\r'`
from every `'\n'`-terminated line (exactly what `read_line` + the
`ends_with('\n')`/`ends_with('\r')` pops in `std::io::Lines` do).
-/

/-- Substring test used to model Rust `str::starts_with` on char lists
(auxiliary for `hasSub`). -/
def startsWith : List Char → List Char → Bool
  | _, [] => true
  | [], _ :: _ => false
  | c :: cs, p :: ps => c == p && startsWith cs ps

/-- Models Rust `line.contains(pat)`: `pat` occurs as a contiguous substring
of `s`. -/
def hasSub : List Char → List Char → Bool
  | [], pat => startsWith [] pat
  | c :: cs, pat => startsWith (c :: cs) pat || hasSub cs pat

/-- The begin pattern tested by `line.contains("gakun begin")`
(src/main.rs line 155). -/
def gBegin : List Char := "gakun begin".data

/-- The end pattern tested by `line.contains("gakun end")`
(src/main.rs line 160). -/
def gEnd : List Char := "gakun end".data

/-- Split a file content at newline characters.  `splitNl s` always has at
least one element; a trailing `'\n'` yields a final empty fragment. -/
def splitNl : List Char → List (List Char)
  | [] => [[]]
  | c :: cs =>
    let r := splitNl cs
    if c = '\n' then [] :: r else (c :: r.headI) :: r.tail

/-- Models the trailing-`'\r'` pop that `std::io::Lines` performs on a line
that ended with `"\r\n"`. -/
def stripCR (l : List Char) : List Char :=
  if l.getLast? = some '\r' then l.dropLast else l

/-- Turn the fragments produced by `splitNl` into the lines that
`BufReader::lines` yields: every `'\n'`-terminated fragment loses one
trailing `'\r'`; the final fragment (no `'\n'` at end of file) is kept
verbatim, and is dropped when empty. -/
def linesAux : List (List Char) → List (List Char)
  | [] => []
  | [l] => if l = [] then [] else [l]
  | l :: ls => stripCR l :: linesAux ls

/-- The sequence of lines `BufReader::lines` yields for a file content. -/
def linesOf (s : List Char) : List (List Char) :=
  linesAux (splitNl s)

/-- The line scan of `read_file_with_skip_section` (src/main.rs lines
152-168): a line containing `"gakun begin"` sets the skip flag and is
dropped, otherwise a line containing `"gakun end"` clears it and is dropped,
and any other line is kept exactly when the flag is clear. -/
def scanLines : Bool → List (List Char) → List (List Char)
  | _, [] => []
  | skip, l :: ls =>
    if hasSub l gBegin then scanLines true ls
    else if hasSub l gEnd then scanLines false ls
    else if skip then scanLines skip ls
    else l :: scanLines skip ls

/-- Join lines with `"\n"` separators, modelling `lines.join("\n")`. -/
def joinNl : List (List Char) → List Char
  | [] => []
  | [l] => l
  | l :: ls => l ++ '\n' :: joinNl ls

/-- `Gakun::read_file_with_skip_section` (src/main.rs lines 140-172) as a
pure function of the SSH config file's content: scan the lines, then
`lines.join("\n") + if lines.is_empty() { "" } else { "\n" }`. -/
def read_file_with_skip_section (content : List Char) : List Char :=
  let lines := scanLines false (linesOf content)
  joinNl lines ++ (if lines = [] then [] else ['\n'])

/-- The `new_config` block rendered by `use_profile` (src/main.rs lines
117-120): `format!("###### gakun begin\nHost {}\n  Hostname {}\n  IdentityFile {}\n###### gakun end\n", host, host, key)`. -/
def new_config (host key : List Char) : List Char :=
  "###### gakun begin\nHost ".data ++ host ++ "\n  Hostname ".data ++ host
    ++ "\n  IdentityFile ".data ++ key ++ "\n###### gakun end\n".data

/-- The content written back by `use_profile` (src/main.rs line 122):
`format!("{}{}", new_config, data)` where `data` is the stripped previous
content. -/
def use_profile_content (content host key : List Char) : List Char :=
  new_config host key ++ read_file_with_skip_section content

/-- The content written back by `detach` (src/main.rs lines 174-180): the
stripped previous content, nothing prepended. -/
def detach_content (content : List Char) : List Char :=
  read_file_with_skip_section content

/-- The lines of a content that the strip scan emits, i.e. the content the
code itself treats as lying outside the managed section. -/
def outsideLines (content : List Char) : List (List Char) :=
  scanLines false (linesOf content)

/-- One invocation of the managed-section editor: `use` prepends a fresh
block for a host/key pair, `detach` only strips. -/
inductive SshOp where
  | useOp (host key : List Char) : SshOp
  | detachOp : SshOp

/-- Run one editor invocation on a file content. -/
def applySshOp (content : List Char) : SshOp → List Char
  | .useOp host key => use_profile_content content host key
  | .detachOp => detach_content content

/-- Run a sequence of editor invocations on a file content. -/
def applySshOps (content : List Char) (ops : List SshOp) : List Char :=
  ops.foldl applySshOp content

/-- A well-formed editor invocation: for `use`, the host and key contain no
newline and the three rendered body lines do not contain the end pattern
`"gakun end"`.  `detach` is always well formed. -/
def goodSshOp : SshOp → Bool
  | .useOp host key =>
    decide ('\n' ∉ host) && decide ('\n' ∉ key)
      && !hasSub ("Host ".data ++ host) gEnd
      && !hasSub ("  Hostname ".data ++ host) gEnd
      && !hasSub ("  IdentityFile ".data ++ key) gEnd
  | .detachOp => true

/-- Association-list get, modelling `HashMap::get`. -/
def alGet {α : Type} : List (String × α) → String → Option α
  | [], _ => none
  | (k, v) :: rest, key => if k = key then some v else alGet rest key

/-- Association-list insert with overwrite, modelling `HashMap::insert`. -/
def alInsert {α : Type} : List (String × α) → String → α → List (String × α)
  | [], key, v => [(key, v)]
  | (k, w) :: rest, key, v =>
    if k = key then (key, v) :: rest else (k, w) :: alInsert rest key v

/-- The `profiles` mapping: profile name → (host → key path).  `HashMap`s
are modelled as association lists with overwriting insert. -/
abbrev Profiles : Type := List (String × List (String × String))

/-- The persisted `Config` document (src/main.rs lines 12-17). -/
structure Config where
  profiles : Profiles
  updated_at : Int
deriving DecidableEq

/-- The state a `Gakun` value can observe and mutate: its in-memory config,
the persisted config file, and the SSH config file.  Serialization is
abstracted as faithful: the config file stores the `Config` document itself
(`serde_json::to_string` / `from_str` round-trip on this schema), `none`
meaning the file is absent. -/
structure Store where
  config : Config
  file : Option Config
  sshFile : List Char
deriving DecidableEq

/-- `Gakun::save_config` (src/main.rs lines 76-89): refresh `updated_at` to
the current clock, then serialize the whole document to the config file. -/
def save_config (s : Store) (now : Int) : Store :=
  let c := { s.config with updated_at := now }
  { s with config := c, file := some c }

/-- `Gakun::load_config` (src/main.rs lines 53-74): read and parse the
config file into memory; if the file is absent, create it via
`save_config`. -/
def load_config (s : Store) (now : Int) : Store :=
  match s.file with
  | some c => { s with config := c }
  | none => save_config s now

/-- The profile/host lookup performed by `use_profile` (src/main.rs lines
108-110): `self.config.profiles.get(profile).and_then(|hosts| hosts.get(host))`. -/
def lookupKey (c : Config) (profile host : String) : Option String :=
  (alGet c.profiles profile).bind fun hosts => alGet hosts host

/-- `Gakun::add` (src/main.rs lines 91-105): validate that the key path
exists on the filesystem (`fsMeta` models `fs::metadata(key).is_ok()`); on
failure return the error without touching any state; on success insert
`profile → host → key` with overwrite and persist via `save_config`. -/
def add (fsMeta : String → Bool) (s : Store) (now : Int)
    (profile host key : String) : Except String Unit × Store :=
  if fsMeta key then
    let profiles' := alInsert s.config.profiles profile
      (alInsert ((alGet s.config.profiles profile).getD []) host key)
    (.ok (), save_config { s with config := { s.config with profiles := profiles' } } now)
  else
    (.error ("SSH key path is not valid: " ++ key), s)

/-- `Gakun::use_profile` (src/main.rs lines 107-128): look up the key for
the profile/host pair; on failure return the error without touching any
state; on success rewrite only the SSH config file with the freshly rendered
block followed by the stripped previous content. -/
def use_profile (s : Store) (profile host : String) : Except String Unit × Store :=
  match lookupKey s.config profile host with
  | none =>
    (.error "There is no such profile and host combination. Please type gakun ls to show your profiles and hosts.", s)
  | some key =>
    (.ok (), { s with sshFile := use_profile_content s.sshFile host.data key.data })

/-- `Gakun::detach` (src/main.rs lines 174-185) at the store level: rewrite
only the SSH config file with the stripped content. -/
def detach (s : Store) : Except String Unit × Store :=
  (.ok (), { s with sshFile := detach_content s.sshFile })

/-- A sample store used to instantiate universally quantified theorems. -/
def sampleStore : Store :=
  { config := { profiles := [("work", [("gitlab.com", "/path/to/key")])], updated_at := 3 }
    file := some { profiles := [("work", [("gitlab.com", "/path/to/key")])], updated_at := 3 }
    sshFile := "foo\nbar\n".data }

/-! ## Basic facts about `splitNl`, `linesAux` and `linesOf` -/

theorem splitNl_ne_nil (s : List Char) : splitNl s ≠ [] := by
  cases s with
  | nil => simp [splitNl]
  | cons c cs => simp only [splitNl]; split <;> simp

theorem splitNl_append_nl (l rest : List Char) (h : '\n' ∉ l) :
    splitNl (l ++ '\n' :: rest) = l :: splitNl rest := by
  induction l with
  | nil => simp [splitNl]
  | cons c cs ih =>
    have hc : ¬(c = '\n') := fun hc => h (hc ▸ List.mem_cons_self c cs)
    have hcs : '\n' ∉ cs := fun hm => h (List.mem_cons_of_mem c hm)
    simp [splitNl, ih hcs, hc]

theorem mem_splitNl_no_nl (s : List Char) : ∀ l ∈ splitNl s, '\n' ∉ l := by
  induction s with
  | nil =>
    intro l hl
    simp [splitNl] at hl
    simp [hl]
  | cons c cs ih =>
    intro l hl
    by_cases hc : c = '\n'
    · subst hc
      simp [splitNl] at hl
      rcases hl with rfl | hl
      · simp
      · exact ih l hl
    · simp [splitNl, hc] at hl
      cases hr : splitNl cs with
      | nil => exact absurd hr (splitNl_ne_nil cs)
      | cons a as =>
        rw [hr] at hl
        rcases hl with rfl | hl
        · intro hmem
          rcases List.mem_cons.mp hmem with h1 | h1
          · exact hc h1.symm
          · exact ih a (hr ▸ List.mem_cons_self a as) (by simpa using h1)
        · exact ih l (hr ▸ List.mem_cons_of_mem a hl)

theorem linesAux_cons (l : List Char) (ls : List (List Char)) (h : ls ≠ []) :
    linesAux (l :: ls) = stripCR l :: linesAux ls := by
  cases ls with
  | nil => exact absurd rfl h
  | cons a as => rfl

theorem linesAux_append_empty (ls : List (List Char)) :
    linesAux (ls ++ [[]]) = ls.map stripCR := by
  induction ls with
  | nil => rfl
  | cons l ls ih =>
    rw [List.cons_append, linesAux_cons _ _ (by simp), ih, List.map_cons]

theorem stripCR_no_nl (l : List Char) (h : '\n' ∉ l) : '\n' ∉ stripCR l := by
  unfold stripCR
  split
  · exact fun hm => h ((List.dropLast_sublist l).subset hm)
  · exact h

theorem mem_linesAux (ps : List (List Char)) (l : List Char) (h : l ∈ linesAux ps) :
    ∃ p ∈ ps, l = stripCR p ∨ l = p := by
  induction ps with
  | nil => simp [linesAux] at h
  | cons a as ih =>
    cases as with
    | nil =>
      by_cases ha : a = []
      · simp [linesAux, ha] at h
      · simp [linesAux, ha] at h
        exact ⟨a, by simp, Or.inr h⟩
    | cons b bs =>
      rw [linesAux_cons a (b :: bs) (by simp)] at h
      rcases List.mem_cons.mp h with rfl | h
      · exact ⟨a, by simp, Or.inl rfl⟩
      · obtain ⟨p, hp, he⟩ := ih h
        exact ⟨p, List.mem_cons_of_mem a hp, he⟩

theorem mem_linesOf_no_nl (s : List Char) : ∀ l ∈ linesOf s, '\n' ∉ l := by
  intro l hl
  obtain ⟨p, hp, he⟩ := mem_linesAux (splitNl s) l hl
  have := mem_splitNl_no_nl s p hp
  rcases he with rfl | rfl
  · exact stripCR_no_nl p this
  · exact this

theorem map_stripCR_id (ls : List (List Char)) (h : ∀ l ∈ ls, stripCR l = l) :
    ls.map stripCR = ls := by
  induction ls with
  | nil => rfl
  | cons a as ih =>
    rw [List.map_cons, h a (by simp), ih (fun l hl => h l (by simp [hl]))]

theorem splitNl_joinNl (ls : List (List Char)) (hne : ls ≠ [])
    (h : ∀ l ∈ ls, '\n' ∉ l) :
    splitNl (joinNl ls ++ ['\n']) = ls ++ [[]] := by
  induction ls with
  | nil => exact absurd rfl hne
  | cons a as ih =>
    cases as with
    | nil =>
      show splitNl (a ++ '\n' :: []) = [a, []]
      rw [splitNl_append_nl a [] (h a (by simp))]
      rfl
    | cons b bs =>
      have : joinNl (a :: b :: bs) ++ ['\n'] = a ++ '\n' :: (joinNl (b :: bs) ++ ['\n']) := by
        show (a ++ '\n' :: joinNl (b :: bs)) ++ ['\n'] = _
        simp [List.append_assoc]
      rw [this, splitNl_append_nl a _ (h a (by simp)),
        ih (by simp) (fun l hl => h l (List.mem_cons_of_mem a hl))]
      rfl

theorem linesOf_joinNl (ls : List (List Char)) (hne : ls ≠ [])
    (h1 : ∀ l ∈ ls, '\n' ∉ l) (h2 : ∀ l ∈ ls, stripCR l = l) :
    linesOf (joinNl ls ++ ['\n']) = ls := by
  unfold linesOf
  rw [splitNl_joinNl ls hne h1, linesAux_append_empty, map_stripCR_id ls h2]

/-! ## Facts about `hasSub` and `stripCR` -/

theorem startsWith_pat_nil (s : List Char) : startsWith s [] = true := by
  cases s <;> rfl

theorem startsWith_append_left (s pat t : List Char) (h : startsWith s pat = true) :
    startsWith (s ++ t) pat = true := by
  induction pat generalizing s with
  | nil => exact startsWith_pat_nil _
  | cons p ps ih =>
    cases s with
    | nil => simp [startsWith] at h
    | cons c cs =>
      simp only [startsWith, Bool.and_eq_true] at h
      simp only [List.cons_append, startsWith, Bool.and_eq_true]
      exact ⟨h.1, ih cs h.2⟩

theorem hasSub_nil_pat (s : List Char) : hasSub s [] = true := by
  cases s <;> rfl

theorem hasSub_append_left (s t pat : List Char) (h : hasSub s pat = true) :
    hasSub (s ++ t) pat = true := by
  induction s with
  | nil =>
    cases pat with
    | nil => exact hasSub_nil_pat t
    | cons p ps => simp [hasSub, startsWith] at h
  | cons c cs ih =>
    simp only [hasSub, Bool.or_eq_true] at h
    simp only [List.cons_append, hasSub, Bool.or_eq_true]
    rcases h with h | h
    · exact Or.inl (startsWith_append_left _ _ _ h)
    · exact Or.inr (ih h)

theorem stripCR_hasSub_false (l pat : List Char) (h : hasSub l pat = false) :
    hasSub (stripCR l) pat = false := by
  unfold stripCR
  split
  case isTrue hl =>
    have hne : l ≠ [] := by
      intro he
      rw [he] at hl
      simp at hl
    rcases Bool.eq_false_or_eq_true (hasSub l.dropLast pat) with ht | hf
    · exfalso
      have happ := hasSub_append_left l.dropLast [l.getLast hne] pat ht
      rw [List.dropLast_append_getLast hne, h] at happ
      exact Bool.false_ne_true happ
    · exact hf
  case isFalse => exact h

/-! ## Facts about the strip scan `scanLines` -/

theorem scan_cons_begin (b : Bool) (l : List Char) (ls : List (List Char))
    (h : hasSub l gBegin = true) : scanLines b (l :: ls) = scanLines true ls := by
  simp [scanLines, h]

theorem scan_cons_end (b : Bool) (l : List Char) (ls : List (List Char))
    (h1 : hasSub l gBegin = false) (h2 : hasSub l gEnd = true) :
    scanLines b (l :: ls) = scanLines false ls := by
  simp [scanLines, h1, h2]

theorem scan_true_skip (l : List Char) (ls : List (List Char))
    (h : hasSub l gEnd = false) : scanLines true (l :: ls) = scanLines true ls := by
  by_cases hb : hasSub l gBegin = true <;> simp [scanLines, hb, h]

theorem scan_mem (b : Bool) (ls : List (List Char)) (l : List Char)
    (h : l ∈ scanLines b ls) : l ∈ ls := by
  induction ls generalizing b with
  | nil => simp [scanLines] at h
  | cons a as ih =>
    simp only [scanLines] at h
    split at h
    · exact List.mem_cons_of_mem a (ih true h)
    · split at h
      · exact List.mem_cons_of_mem a (ih false h)
      · split at h
        · exact List.mem_cons_of_mem a (ih b h)
        · rcases List.mem_cons.mp h with rfl | h
          · exact List.mem_cons_self _ _
          · exact List.mem_cons_of_mem _ (ih b h)

theorem scan_clean (b : Bool) (ls : List (List Char)) (l : List Char)
    (h : l ∈ scanLines b ls) :
    hasSub l gBegin = false ∧ hasSub l gEnd = false := by
  induction ls generalizing b with
  | nil => simp [scanLines] at h
  | cons a as ih =>
    by_cases hb : hasSub a gBegin = true
    · rw [scan_cons_begin b a as hb] at h
      exact ih true h
    · have hb' : hasSub a gBegin = false := by simpa using hb
      by_cases he : hasSub a gEnd = true
      · rw [scan_cons_end b a as hb' he] at h
        exact ih false h
      · have he' : hasSub a gEnd = false := by simpa using he
        cases b with
        | true =>
          rw [scan_true_skip a as he'] at h
          exact ih true h
        | false =>
          rw [show scanLines false (a :: as) = a :: scanLines false as from by
            simp [scanLines, hb', he']] at h
          rcases List.mem_cons.mp h with rfl | hm
          · exact ⟨hb', he'⟩
          · exact ih false hm

theorem scan_clean_id (ls : List (List Char))
    (h : ∀ l ∈ ls, hasSub l gBegin = false ∧ hasSub l gEnd = false) :
    scanLines false ls = ls := by
  induction ls with
  | nil => rfl
  | cons a as ih =>
    obtain ⟨h1, h2⟩ := h a (by simp)
    simp [scanLines, h1, h2, ih (fun l hl => h l (by simp [hl]))]

theorem scan_true_drop (ls : List (List Char))
    (h : ∀ l ∈ ls, hasSub l gEnd = false) : scanLines true ls = [] := by
  induction ls with
  | nil => rfl
  | cons a as ih =>
    rw [scan_true_skip a as (h a (by simp))]
    exact ih (fun l hl => h l (by simp [hl]))

/-! ## The central splice lemmas -/

theorem lines_strip_out (c : List Char)
    (hcr : ∀ l ∈ outsideLines c, stripCR l = l) :
    linesOf (read_file_with_skip_section c) = outsideLines c := by
  by_cases hE : outsideLines c = []
  · show linesOf (joinNl (outsideLines c)
      ++ (if outsideLines c = [] then [] else ['\n'])) = outsideLines c
    rw [hE]
    rfl
  · show linesOf (joinNl (outsideLines c)
      ++ (if outsideLines c = [] then [] else ['\n'])) = outsideLines c
    rw [if_neg hE]
    exact linesOf_joinNl (outsideLines c) hE
      (fun l hl => mem_linesOf_no_nl c l (scan_mem false (linesOf c) l hl)) hcr

theorem outside_strip (c : List Char)
    (hcr : ∀ l ∈ outsideLines c, stripCR l = l) :
    outsideLines (read_file_with_skip_section c) = outsideLines c := by
  show scanLines false (linesOf (read_file_with_skip_section c)) = outsideLines c
  rw [lines_strip_out c hcr]
  exact scan_clean_id (outsideLines c) (fun l hl => scan_clean false (linesOf c) l hl)

theorem new_config_decomp (host key : List Char) :
    new_config host key =
      "###### gakun begin".data ++ '\n' :: (("Host ".data ++ host) ++ '\n' ::
        (("  Hostname ".data ++ host) ++ '\n' :: (("  IdentityFile ".data ++ key) ++ '\n' ::
          ("###### gakun end".data ++ ['\n'])))) := by
  have e1 : "###### gakun begin\nHost ".data
      = "###### gakun begin".data ++ '\n' :: "Host ".data := rfl
  have e2 : "\n  Hostname ".data = '\n' :: "  Hostname ".data := rfl
  have e3 : "\n  IdentityFile ".data = '\n' :: "  IdentityFile ".data := rfl
  have e4 : "\n###### gakun end\n".data
      = '\n' :: ("###### gakun end".data ++ ['\n']) := rfl
  rw [new_config, e1, e2, e3, e4]
  simp [List.append_assoc]

theorem lines_render_append (host key D : List Char)
    (hh : '\n' ∉ host) (hk : '\n' ∉ key) :
    linesOf (new_config host key ++ D) =
      "###### gakun begin".data :: stripCR ("Host ".data ++ host)
        :: stripCR ("  Hostname ".data ++ host)
        :: stripCR ("  IdentityFile ".data ++ key)
        :: "###### gakun end".data :: linesOf D := by
  have hb : '\n' ∉ "###### gakun begin".data := by decide
  have he : '\n' ∉ "###### gakun end".data := by decide
  have hl2 : '\n' ∉ ("Host ".data ++ host) := by
    intro hm
    rcases List.mem_append.mp hm with hm | hm
    · revert hm
      decide
    · exact hh hm
  have hl3 : '\n' ∉ ("  Hostname ".data ++ host) := by
    intro hm
    rcases List.mem_append.mp hm with hm | hm
    · revert hm
      decide
    · exact hh hm
  have hl4 : '\n' ∉ ("  IdentityFile ".data ++ key) := by
    intro hm
    rcases List.mem_append.mp hm with hm | hm
    · revert hm
      decide
    · exact hk hm
  have hd : new_config host key ++ D =
      "###### gakun begin".data ++ '\n' :: (("Host ".data ++ host) ++ '\n' ::
        (("  Hostname ".data ++ host) ++ '\n' :: (("  IdentityFile ".data ++ key) ++ '\n' ::
          ("###### gakun end".data ++ '\n' :: D)))) := by
    rw [new_config_decomp]
    simp [List.append_assoc]
  rw [hd]
  unfold linesOf
  rw [splitNl_append_nl _ _ hb, splitNl_append_nl _ _ hl2, splitNl_append_nl _ _ hl3,
    splitNl_append_nl _ _ hl4, splitNl_append_nl _ _ he]
  rw [linesAux_cons _ _ (by simp), linesAux_cons _ _ (by simp),
    linesAux_cons _ _ (by simp), linesAux_cons _ _ (by simp),
    linesAux_cons _ _ (splitNl_ne_nil D)]
  rw [show stripCR "###### gakun begin".data = "###### gakun begin".data from by decide,
    show stripCR "###### gakun end".data = "###### gakun end".data from by decide]

theorem outside_use (c host key : List Char)
    (hh : '\n' ∉ host) (hk : '\n' ∉ key)
    (h2 : hasSub ("Host ".data ++ host) gEnd = false)
    (h3 : hasSub ("  Hostname ".data ++ host) gEnd = false)
    (h4 : hasSub ("  IdentityFile ".data ++ key) gEnd = false)
    (hcr : ∀ l ∈ outsideLines c, stripCR l = l) :
    outsideLines (use_profile_content c host key) = outsideLines c := by
  show scanLines false (linesOf (new_config host key ++ read_file_with_skip_section c))
    = outsideLines c
  rw [lines_render_append host key _ hh hk]
  rw [scan_cons_begin _ _ _ (by decide),
    scan_true_skip _ _ (stripCR_hasSub_false _ _ h2),
    scan_true_skip _ _ (stripCR_hasSub_false _ _ h3),
    scan_true_skip _ _ (stripCR_hasSub_false _ _ h4),
    scan_cons_end _ _ _ (by decide) (by decide)]
  rw [lines_strip_out c hcr]
  exact scan_clean_id (outsideLines c) (fun l hl => scan_clean false (linesOf c) l hl)

theorem strip_use (c host key : List Char)
    (hh : '\n' ∉ host) (hk : '\n' ∉ key)
    (h2 : hasSub ("Host ".data ++ host) gEnd = false)
    (h3 : hasSub ("  Hostname ".data ++ host) gEnd = false)
    (h4 : hasSub ("  IdentityFile ".data ++ key) gEnd = false)
    (hcr : ∀ l ∈ outsideLines c, stripCR l = l) :
    read_file_with_skip_section (use_profile_content c host key)
      = read_file_with_skip_section c := by
  have h := outside_use c host key hh hk h2 h3 h4 hcr
  show joinNl (outsideLines (use_profile_content c host key))
      ++ (if outsideLines (use_profile_content c host key) = [] then [] else ['\n'])
    = joinNl (outsideLines c) ++ (if outsideLines c = [] then [] else ['\n'])
  rw [h]

theorem outside_step (c : List Char) (op : SshOp) (hg : goodSshOp op = true)
    (hcr : ∀ l ∈ outsideLines c, stripCR l = l) :
    outsideLines (applySshOp c op) = outsideLines c := by
  cases op with
  | useOp host key =>
    simp only [goodSshOp, Bool.and_eq_true, decide_eq_true_eq, Bool.not_eq_true'] at hg
    obtain ⟨⟨⟨⟨g1, g2⟩, g3⟩, g4⟩, g5⟩ := hg
    exact outside_use c host key g1 g2 g3 g4 g5 hcr
  | detachOp => exact outside_strip c hcr

/-! ## Claims C1, C2, C3: the splice algebra -/

/-- C1 counterexample: with block content rendered for the host
`"h gakun end"` (whose body lines contain the end pattern), applying the
splice twice does not equal applying it once — the rescan of the block
toggles the skip flag off early and leaks the `IdentityFile` body line. -/
theorem splice_idempotent_counterexample :
    use_profile_content
        (use_profile_content [] "h gakun end".data "/k".data)
        "h gakun end".data "/k".data
      ≠ use_profile_content [] "h gakun end".data "/k".data := by
  decide

/-- C1 (amended): the splice is idempotent provided the host and key contain
no newline, none of the three rendered body lines contains the end pattern
`"gakun end"`, and no line of the original content that the strip scan
emits ends in a carriage return. -/
theorem splice_idempotent_amended (C host key : List Char)
    (hh : '\n' ∉ host) (hk : '\n' ∉ key)
    (h2 : hasSub ("Host ".data ++ host) gEnd = false)
    (h3 : hasSub ("  Hostname ".data ++ host) gEnd = false)
    (h4 : hasSub ("  IdentityFile ".data ++ key) gEnd = false)
    (hcr : ∀ l ∈ outsideLines C, stripCR l = l) :
    use_profile_content (use_profile_content C host key) host key
      = use_profile_content C host key := by
  show new_config host key ++ read_file_with_skip_section (use_profile_content C host key)
    = new_config host key ++ read_file_with_skip_section C
  rw [strip_use C host key hh hk h2 h3 h4 hcr]

/-- C1 witness: idempotence at a concrete well-formed input. -/
theorem splice_idempotent_witness :
    use_profile_content
        (use_profile_content "foo\nbar\n".data "gitlab.com".data "/path/to/key".data)
        "gitlab.com".data "/path/to/key".data
      = use_profile_content "foo\nbar\n".data "gitlab.com".data "/path/to/key".data :=
  splice_idempotent_amended _ _ _ (by decide) (by decide) (by decide) (by decide)
    (by decide) (by decide)

/-- C2 counterexample: for the content `"ab\r"` (a final line with a
trailing carriage return and no newline at end of file), stripping the
spliced file yields `"ab\n"` while stripping the original yields `"ab\r\n"`
— the rescan removes the `'\r'` that the first pass kept. -/
theorem detach_left_inverse_counterexample :
    detach_content (use_profile_content "ab\r".data "h".data "/k".data)
      ≠ detach_content "ab\r".data := by
  decide

/-- C2 (amended): stripping the managed block commutes with the splice —
`stripManagedBlock (apply C B) = stripManagedBlock C` — provided the host
and key contain no newline, none of the three rendered body lines contains
the end pattern `"gakun end"`, and no emitted line of `C` ends in a
carriage return. -/
theorem detach_left_inverse_amended (C host key : List Char)
    (hh : '\n' ∉ host) (hk : '\n' ∉ key)
    (h2 : hasSub ("Host ".data ++ host) gEnd = false)
    (h3 : hasSub ("  Hostname ".data ++ host) gEnd = false)
    (h4 : hasSub ("  IdentityFile ".data ++ key) gEnd = false)
    (hcr : ∀ l ∈ outsideLines C, stripCR l = l) :
    detach_content (use_profile_content C host key) = detach_content C :=
  strip_use C host key hh hk h2 h3 h4 hcr

/-- C2 witness: the left-inverse law at a concrete well-formed input. -/
theorem detach_left_inverse_witness :
    detach_content (use_profile_content "Host old\n".data "example.org".data "/id_rsa".data)
      = detach_content "Host old\n".data :=
  detach_left_inverse_amended _ _ _ (by decide) (by decide) (by decide) (by decide)
    (by decide) (by decide)

/-- C3 counterexample: the content `"foo gakun end bar\nbaz\n"` contains no
begin pattern at all, so all of it lies outside any managed block, yet a
single `detach` (an `apply` with no new block) deletes its first line
because that line contains `"gakun end"` as a substring. -/
theorem non_interference_counterexample :
    hasSub "foo gakun end bar\nbaz\n".data gBegin = false
      ∧ detach_content "foo gakun end bar\nbaz\n".data = "baz\n".data
      ∧ "baz\n".data ≠ "foo gakun end bar\nbaz\n".data := by
  decide

/-- C3 (amended): the lines the strip scan emits — the content the code
treats as outside the managed block, which excludes any line containing a
marker substring — are preserved, in their original relative order, across
any sequence of `apply` calls (with or without a new block), provided no
emitted line of the initial content ends in a carriage return and every
`use` in the sequence has a newline-free host and key whose rendered body
lines do not contain the end pattern.  Byte-for-byte preservation of the
raw text does not hold (the counterexample, CRLF normalization, and the
added final newline). -/
theorem non_interference_amended (C : List Char) (ops : List SshOp)
    (hcr : ∀ l ∈ outsideLines C, stripCR l = l)
    (hops : ∀ op ∈ ops, goodSshOp op = true) :
    outsideLines (applySshOps C ops) = outsideLines C := by
  induction ops generalizing C with
  | nil => rfl
  | cons op rest ih =>
    have hstep := outside_step C op (hops op (by simp)) hcr
    have hcr' : ∀ l ∈ outsideLines (applySshOp C op), stripCR l = l := by
      rw [hstep]
      exact hcr
    have hrest := ih (applySshOp C op) hcr' (fun o ho => hops o (by simp [ho]))
    show outsideLines (applySshOps (applySshOp C op) rest) = outsideLines C
    rw [hrest, hstep]

/-- C3 witness: outside content is preserved across a concrete sequence of
three editor invocations. -/
theorem non_interference_witness :
    outsideLines (applySshOps "keep me\n".data
        [SshOp.useOp "h1".data "/k1".data, SshOp.detachOp,
          SshOp.useOp "h2".data "/k2".data])
      = outsideLines "keep me\n".data :=
  non_interference_amended _ _ (by decide) (by decide)

/-! ## Claims C4, C5, C6: the strip scan -/

/-- C4 counterexample: the line `"abc gakun begin xyz"` is not the exact
begin-marker line, yet it toggles inside-block on — the whole file is
dropped instead of the line being emitted as ordinary content. -/
theorem marker_matching_counterexample :
    "abc gakun begin xyz".data ≠ "###### gakun begin".data
      ∧ read_file_with_skip_section "abc gakun begin xyz\nhello\n".data = [] := by
  decide

/-- C4 (amended): the scan matches by substring, not by exact line: any
line containing `"gakun begin"` (checked first) toggles inside-block on and
is dropped; otherwise any line containing `"gakun end"` toggles it off and
is dropped; consequently no emitted line contains either marker pattern, so
a line merely containing the marker text is never treated as an ordinary
line. -/
theorem marker_matching_amended :
    (∀ (sk : Bool) (l : List Char) (ls : List (List Char)),
        hasSub l gBegin = true → scanLines sk (l :: ls) = scanLines true ls)
      ∧ (∀ (sk : Bool) (l : List Char) (ls : List (List Char)),
        hasSub l gBegin = false → hasSub l gEnd = true →
          scanLines sk (l :: ls) = scanLines false ls)
      ∧ (∀ (sk : Bool) (ls : List (List Char)) (l : List Char),
        l ∈ scanLines sk ls → hasSub l gBegin = false ∧ hasSub l gEnd = false) :=
  ⟨scan_cons_begin, scan_cons_end, scan_clean⟩

/-- C4 witness: the non-marker line `"abc gakun begin xyz"` toggles the
scan into skipping state. -/
theorem marker_matching_witness :
    scanLines false ["abc gakun begin xyz".data, "hello".data]
      = scanLines true ["hello".data] :=
  marker_matching_amended.1 false "abc gakun begin xyz".data ["hello".data] (by decide)

theorem joinNl_flat (ls : List (List Char)) :
    joinNl ls ++ (if ls = [] then [] else ['\n'])
      = (ls.map (fun l => l ++ ['\n'])).flatten := by
  induction ls with
  | nil => rfl
  | cons a as ih =>
    cases as with
    | nil => simp [joinNl]
    | cons b bs =>
      have ih' : joinNl (b :: bs) ++ ['\n']
          = ((b :: bs).map (fun l => l ++ ['\n'])).flatten := by
        simpa using ih
      show (a ++ '\n' :: joinNl (b :: bs)) ++ ['\n'] = _
      rw [List.map_cons, List.flatten_cons, ← ih']
      simp [List.append_assoc]

/-- C5 (confirmed): the strip output is the emitted lines rejoined with
newline separators, with a single trailing newline when at least one line
was emitted and the empty string otherwise — equivalently, the
concatenation of the emitted lines each followed by one `'\n'`; in
particular the output is empty exactly when no line was emitted. -/
theorem strip_output_format (content : List Char) :
    read_file_with_skip_section content
        = ((scanLines false (linesOf content)).map (fun l => l ++ ['\n'])).flatten
      ∧ (read_file_with_skip_section content = []
        ↔ scanLines false (linesOf content) = []) := by
  constructor
  · exact joinNl_flat _
  · constructor
    · intro h
      cases hE : scanLines false (linesOf content) with
      | nil => rfl
      | cons e es =>
        exfalso
        have hr : read_file_with_skip_section content
            = (e ++ ['\n']) ++ (es.map (fun l => l ++ ['\n'])).flatten := by
          show joinNl (scanLines false (linesOf content))
            ++ (if scanLines false (linesOf content) = [] then [] else ['\n']) = _
          rw [joinNl_flat (scanLines false (linesOf content)), hE, List.map_cons,
            List.flatten_cons]
        rw [h] at hr
        have := (List.append_eq_nil.mp hr.symm).1
        simp at this
    · intro hE
      show joinNl (scanLines false (linesOf content))
        ++ (if scanLines false (linesOf content) = [] then [] else ['\n']) = []
      rw [hE]
      rfl

/-- C6 (confirmed): the scan keeps a single boolean state: from the inside
state, any line without the end pattern — in particular a further
begin-marker — leaves the scan inside and is dropped (no stacking); if no
later line contains the end pattern, every remaining line is dropped, so a
file that opens with a begin-marker and never closes it strips to the empty
string. -/
theorem no_stacking_drop_to_eof :
    (∀ (l : List Char) (ls : List (List Char)), hasSub l gEnd = false →
        scanLines true (l :: ls) = scanLines true ls)
      ∧ (∀ ls : List (List Char), (∀ l ∈ ls, hasSub l gEnd = false) →
        scanLines true ls = [])
      ∧ (∀ rest : List Char, (∀ l ∈ linesOf rest, hasSub l gEnd = false) →
        read_file_with_skip_section ("###### gakun begin\n".data ++ rest) = []) := by
  refine ⟨scan_true_skip, scan_true_drop, ?_⟩
  intro rest h
  have hdec : "###### gakun begin\n".data ++ rest
      = "###### gakun begin".data ++ '\n' :: rest := by
    rw [show "###### gakun begin\n".data
      = "###### gakun begin".data ++ ['\n'] from rfl, List.append_assoc]
    rfl
  have hl : linesOf ("###### gakun begin".data ++ '\n' :: rest)
      = "###### gakun begin".data :: linesOf rest := by
    unfold linesOf
    rw [splitNl_append_nl _ _ (by decide), linesAux_cons _ _ (splitNl_ne_nil rest),
      show stripCR "###### gakun begin".data = "###### gakun begin".data from by decide]
  rw [hdec]
  show joinNl (scanLines false (linesOf ("###### gakun begin".data ++ '\n' :: rest)))
    ++ (if scanLines false (linesOf ("###### gakun begin".data ++ '\n' :: rest)) = []
      then [] else ['\n']) = []
  rw [hl, scan_cons_begin _ _ _ (by decide), scan_true_drop _ h]
  rfl

/-- C6 witness: a file with two begin-markers and no end-marker strips to
the empty string. -/
theorem no_stacking_witness :
    read_file_with_skip_section
        ("###### gakun begin\n".data ++ "a\n###### gakun begin\nb".data) = [] :=
  no_stacking_drop_to_eof.2.2 "a\n###### gakun begin\nb".data (by decide)

/-! ## Claims C7, C8, C9, C10: the profile store -/

/-- C7 (confirmed): loading right after saving yields a document with the
same profiles mapping; the saved file holds exactly the refreshed in-memory
document; and, as long as the clock has not gone backwards past the old
stamp, the saved `updated_at` is not smaller than its value before the
save. -/
theorem config_round_trip (s : Store) (now now' : Int) :
    (load_config (save_config s now) now').config.profiles = s.config.profiles
      ∧ (save_config s now).file = some (save_config s now).config
      ∧ (s.config.updated_at ≤ now →
        s.config.updated_at ≤ (save_config s now).config.updated_at) := by
  refine ⟨rfl, rfl, ?_⟩
  intro h
  exact h

/-- C7 witness: the round trip at a concrete store and clock values. -/
theorem config_round_trip_witness :
    (load_config (save_config sampleStore 10) 20).config.profiles
        = sampleStore.config.profiles
      ∧ sampleStore.config.updated_at ≤ (save_config sampleStore 10).config.updated_at :=
  ⟨(config_round_trip sampleStore 10 20).1,
    (config_round_trip sampleStore 10 20).2.2 (by decide)⟩

/-- C8 (confirmed): when the key path does not exist on the filesystem,
`add` returns the `InvalidKeyPath` error and returns the store — in-memory
config, persisted file and SSH file — completely unchanged. -/
theorem add_invalid_key (fsMeta : String → Bool) (s : Store) (now : Int)
    (profile host key : String) (h : fsMeta key = false) :
    add fsMeta s now profile host key
      = (.error ("SSH key path is not valid: " ++ key), s) := by
  unfold add
  rw [h]
  rfl

/-- C8 witness: a failing `add` on a concrete store leaves it unchanged. -/
theorem add_invalid_key_witness :
    add (fun _ => false) sampleStore 7 "work" "gitlab.com" "/no/such/key"
      = (.error ("SSH key path is not valid: " ++ "/no/such/key"), sampleStore) :=
  add_invalid_key (fun _ => false) sampleStore 7 "work" "gitlab.com" "/no/such/key" rfl

theorem alGet_alInsert {α : Type} (m : List (String × α)) (key : String) (v : α) :
    alGet (alInsert m key v) key = some v := by
  induction m with
  | nil => simp [alInsert, alGet]
  | cons kv rest ih =>
    obtain ⟨k, w⟩ := kv
    by_cases hk : k = key
    · simp [alInsert, hk, alGet]
    · simp [alInsert, hk, alGet, ih]

/-- C9 (confirmed): adding the same profile/host pair twice with two key
paths leaves exactly the second key path retrievable via the lookup that
`use_profile` performs — last-write-wins. -/
theorem add_overwrite (fsMeta : String → Bool) (s : Store) (now1 now2 : Int)
    (profile host k1 k2 : String) (h1 : fsMeta k1 = true) (h2 : fsMeta k2 = true) :
    lookupKey
        ((add fsMeta ((add fsMeta s now1 profile host k1).2) now2 profile host k2).2).config
        profile host
      = some k2 := by
  simp only [add, h1, h2, if_true]
  unfold lookupKey save_config
  simp [alGet_alInsert]

/-- C9 witness: overwrite semantics at concrete profile, host and keys. -/
theorem add_overwrite_witness :
    lookupKey
        ((add (fun _ => true) ((add (fun _ => true) sampleStore 1 "personal" "github.com" "/k1").2)
          2 "personal" "github.com" "/k2").2).config
        "personal" "github.com"
      = some "/k2" :=
  add_overwrite (fun _ => true) sampleStore 1 2 "personal" "github.com" "/k1" "/k2" rfl rfl

/-- C10 (confirmed): `use_profile` never touches the profile store: whether
the lookup succeeds or fails, the in-memory config document (profiles and
`updated_at`) and the persisted config file are unchanged; only the SSH
config file can differ. -/
theorem use_profile_frame (s : Store) (profile host : String) :
    ((use_profile s profile host).2).config = s.config
      ∧ ((use_profile s profile host).2).file = s.file := by
  cases h : lookupKey s.config profile host with
  | none => simp [use_profile, h]
  | some key => simp [use_profile, h]
